import Mathlib

/-!
Verification of the psych-audio semantic-distance pipeline.

This file gives a shallow embedding of the core functions of
`src/evaluation/embeddings/util.py` and `src/preproc/util.py`
(validity filtering, pairwise distance extraction, sentence encoding,
the random-sentence baseline and transcript canonicalization), and
proves or refutes the specification's claims about them.

Python floats are modelled by the inductive `PyFloat` (NaN, the two
infinities, and exact rationals); numpy matrices are modelled
index-wise; the random draws of `numpy.random` are passed in as
explicit parameters constrained by the documented contract of the
sampling primitive.
-/

namespace PsychAudio

/-- Model of a Python float value: NaN, ±infinity, or a finite value
(modelled exactly as a rational). -/
inductive PyFloat where
  | nan : PyFloat
  | inf : PyFloat
  | ninf : PyFloat
  | fin : ℚ → PyFloat
deriving DecidableEq, Repr

/-- `math.isnan`. -/
def pyIsNan : PyFloat → Bool
  | .nan => true
  | _ => false

/-- `math.isinf` (true for both infinities). -/
def pyIsInf : PyFloat → Bool
  | .inf => true
  | .ninf => true
  | _ => false

/-- Python comparison `x < 0` (false when `x` is NaN). -/
def pyLtZero : PyFloat → Bool
  | .nan => false
  | .inf => false
  | .ninf => true
  | .fin q => decide (q < 0)

/-- Python comparison `x <= 0` (false when `x` is NaN). -/
def pyLeZero : PyFloat → Bool
  | .nan => false
  | .inf => false
  | .ninf => true
  | .fin q => decide (q ≤ 0)

/-- numpy truthiness of a float used by `np.nonzero`: every value other
than an exact zero (including NaN and the infinities) counts as nonzero. -/
def npNonzero : PyFloat → Bool
  | .fin q => decide (q ≠ 0)
  | _ => true

/-- `is_valid_distance` from `src/evaluation/embeddings/util.py`:
checks `None`, `math.isnan`, `math.isinf`, then `number < 0`,
in that order, returning `False` on the first hit and `True` otherwise. -/
def is_valid_distance : Option PyFloat → Bool
  | none => false
  | some x =>
    if pyIsNan x then false
    else if pyIsInf x then false
    else if pyLtZero x then false
    else true

/-- Validity predicate as the specification words it (§4.4): non-null,
not NaN, not infinite, and strictly greater than zero.  Written from the
spec, to be compared against the code's `is_valid_distance`. -/
def specIsValid : Option PyFloat → Bool
  | none => false
  | some x => !pyIsNan x && !pyIsInf x && !pyLeZero x

/-! ### Embedding of `src/preproc/util.py`: `digits_to_words` and `canonicalize`

Strings are processed through their underlying character lists.  The
inputs handled by the claims are ASCII, so `str.lower` is modelled by
the ASCII case map and `str.isdigit` by the ASCII digit test. -/

/-- ASCII `str.lower` on one character (codes 65–90 are the upper-case
letters). -/
def asciiLower (c : Char) : Char :=
  if 65 ≤ c.toNat && c.toNat ≤ 90 then Char.ofNat (c.toNat + 32) else c

/-- Membership in Python's `string.punctuation`
(ASCII ranges 33–47, 58–64, 91–96, 123–126). -/
def isPunct (c : Char) : Bool :=
  (33 ≤ c.toNat && c.toNat ≤ 47) || (58 ≤ c.toNat && c.toNat ≤ 64) ||
  (91 ≤ c.toNat && c.toNat ≤ 96) || (123 ≤ c.toNat && c.toNat ≤ 126)

/-- Membership in Python's whitespace set (as stripped by `str.strip`
and matched by the regex class `\s`). -/
def isPySpaceC (c : Char) : Bool :=
  c = ' ' || c = '\t' || c = '\n' || c = '\x0b' || c = '\x0c' || c = '\r'

/-- Lower-case ASCII letter (codes 97–122). -/
def isLowerAlpha (c : Char) : Bool := 97 ≤ c.toNat && c.toNat ≤ 122

/-- The `num2words1` table (note that it does contain key 19, which
`digits_to_words` never reaches). -/
def num2words1 : List (ℕ × String) :=
  [(0, "zero"), (1, "one"), (2, "two"), (3, "three"), (4, "four"),
   (5, "five"), (6, "six"), (7, "seven"), (8, "eight"), (9, "nine"),
   (10, "ten"), (11, "eleven"), (12, "twelve"), (13, "thirteen"),
   (14, "fourteen"), (15, "fifteen"), (16, "sixteen"), (17, "seventeen"),
   (18, "eighteen"), (19, "nineteen")]

/-- The `num2words2` table of tens words. -/
def num2words2 : List String :=
  ["twenty", "thirty", "forty", "fifty", "sixty", "seventy", "eighty", "ninety"]

/-- The `ordinals` table. -/
def ordinals : List (String × String) :=
  [("1st", "first"), ("2nd", "second"), ("3rd", "third"), ("4th", "fourth"),
   ("5th", "fifth"), ("6th", "sixth"), ("7th", "seventh"), ("8th", "eighth"),
   ("9th", "ninth"), ("10th", "tenth")]

/-- Decimal value of a digit-character list (Python `int` on a digit string). -/
def parseNatL (cs : List Char) : ℕ :=
  cs.foldl (fun a c => 10 * a + (c.toNat - 48)) 0

/-- Python `str.isdigit` for ASCII input: nonempty and all characters
are decimal digits (codes 48–57). -/
def isdigitL (cs : List Char) : Bool :=
  !cs.isEmpty && cs.all (fun c => 48 ≤ c.toNat && c.toNat ≤ 57)

/-- `digits_to_words` from `src/preproc/util.py`.  The argument is the
digit token; `integer = int(digits)` is nonnegative for digit strings,
so the Python guard `0 <= integer < 19` reduces to `integer < 19`. -/
def digits_to_words (digits : String) : String :=
  let integer := parseNatL digits.data
  if integer < 19 then ((num2words1.lookup integer).getD "")
  else if 20 ≤ integer && integer ≤ 99 then
    (num2words2.getD (integer / 10 - 2) "") ++ " " ++
      ((num2words1.lookup (integer % 10)).getD "")
  else ""

/-- Index of the last `]` occurring in `cs` before the first newline,
used to model the greedy `\[.*\]` alternative of the scrub regex
(`.*` does not cross newlines, and greediness backtracks to the last
closing bracket). -/
def lastRBracket (cs : List Char) : Option ℕ :=
  let line := cs.takeWhile (fun c => c ≠ '\n')
  ((List.range line.length).filter (fun j => line.getD j ' ' = ']')).getLast?

/-- One left-to-right pass of `re.sub('\[.*\]|\s-\s.*', '', text)`:
at each position try the first alternative (`[` up to the last `]` on
the line), then the second (whitespace, `-`, whitespace, rest of line),
deleting matches and resuming after them.  `fuel` bounds the recursion
(one unit per consumed character suffices). -/
def scrubAux : ℕ → List Char → List Char
  | 0, cs => cs
  | _, [] => []
  | fuel + 1, c :: rest =>
    if c = '[' then
      match lastRBracket rest with
      | some j => scrubAux fuel (rest.drop (j + 1))
      | none => c :: scrubAux fuel rest
    else if isPySpaceC c then
      match rest with
      | d :: w :: tail =>
        if d = '-' && isPySpaceC w then
          scrubAux fuel (tail.dropWhile (fun x => x ≠ '\n'))
        else c :: scrubAux fuel rest
      | _ => c :: scrubAux fuel rest
    else c :: scrubAux fuel rest

/-- `re.sub('\[.*\]|\s-\s.*', '', text)` on a character list. -/
def scrubSub (cs : List Char) : List Char := scrubAux cs.length cs

/-- Python `text.split(' ')` on a character list: split at every single
space, keeping empty fields. -/
def splitSp : List Char → List (List Char)
  | [] => [[]]
  | c :: rest =>
    if c = ' ' then [] :: splitSp rest
    else
      match splitSp rest with
      | [] => [[c]]
      | t :: ts => (c :: t) :: ts

/-- Python `' '.join(tokens)` on character-list tokens. -/
def joinSp : List (List Char) → List Char
  | [] => []
  | [t] => t
  | t :: ts => t ++ ' ' :: joinSp ts

/-- `re.sub(' +', ' ', text)`: collapse every run of space characters
to a single space. -/
def mergeSpacesC : List Char → List Char
  | [] => []
  | [c] => [c]
  | c1 :: c2 :: rest =>
    if c1 = ' ' && c2 = ' ' then mergeSpacesC (c2 :: rest)
    else c1 :: mergeSpacesC (c2 :: rest)

/-- Python `str.strip()`: drop whitespace from both ends. -/
def stripPy (cs : List Char) : List Char :=
  ((cs.dropWhile isPySpaceC).reverse.dropWhile isPySpaceC).reverse

/-- The per-token rewrite inside `canonicalize`: digit tokens go through
`digits_to_words`, ordinal tokens through the `ordinals` table, all
others are unchanged. -/
def canonToken (t : List Char) : List Char :=
  if isdigitL t then (digits_to_words (String.mk t)).data
  else ((ordinals.lookup (String.mk t)).getD (String.mk t)).data

/-- `canonicalize` from `src/preproc/util.py`, on a character list:
lower-case; scrub bracketed data (only when a `[` is present); delete
punctuation; rewrite digit and ordinal tokens; re-join; lower-case
again; merge repeated spaces; strip. -/
def canonicalizeC (cs : List Char) : List Char :=
  let t1 := cs.map asciiLower
  let t2 := if '[' ∈ t1 then scrubSub t1 else t1
  let t3 := t2.filter (fun c => !isPunct c)
  let toks := (splitSp t3).map canonToken
  let t4 := joinSp toks
  let t5 := t4.map asciiLower
  let t6 := mergeSpacesC t5
  stripPy t6

/-- `canonicalize` from `src/preproc/util.py`. -/
def canonicalize (s : String) : String := String.mk (canonicalizeC s.data)

/-- Number of (nonempty) space-separated words of a string, i.e.
`len(s.split())` for strings whose only whitespace is the space
character. -/
def wordCount (s : String) : ℕ :=
  ((splitSp s.data).filter (fun t => !t.isEmpty)).length

/-! ### Embedding of `src/evaluation/embeddings/util.py`

Embedding models are word-to-vector functions with finite vectors of
rationals; the `config.F` dimension table is passed explicitly (the
source reads it from the ambient `config` module). -/

/-- The `config.F` dimension table from
`src/evaluation/embeddings/config.py`. -/
def configF : List (String × ℕ) := [("word2vec", 300), ("glove", 300), ("bert", 1024)]

/-- Dimension lookup `config.F[name]` over an explicit table. -/
def dimOf (Ftable : List (String × ℕ)) (name : String) : ℕ :=
  (Ftable.lookup name).getD 0

/-- Python `sentence.split(' ')`: split at every single space, keeping
empty fields (via `splitSp` on the character list). -/
def pySplitSp (s : String) : List String :=
  (splitSp s.data).map String.mk

/-- `encode_from_dict` from `src/evaluation/embeddings/util.py`:
split the sentence on single spaces, count the words present in `keys`,
return `None` when the count is zero, and otherwise mean-pool the
covered words' vectors over a zero-initialized `(count, F)` matrix
(component `j` of a row is `(model w).getD j 0`, matching the zero fill
of `np.zeros`). -/
def encode_from_dict (Ftable : List (String × ℕ)) (embedding_name : String)
    (model : String → List ℚ) (keys : String → Bool) (sentence : String) :
    Option (List ℚ) :=
  let words := pySplitSp sentence
  let covered := words.filter (fun w => keys w)
  if covered.length = 0 then none
  else
    let Fn := dimOf Ftable embedding_name
    some ((List.range Fn).map (fun j =>
      ((covered.map (fun w => (model w).getD j 0)).sum) / covered.length))

/-- `batch_encode` from `src/evaluation/embeddings/util.py`:
a zero matrix of shape `(len(sentences), F)` whose row `i` is assigned
`encode_from_dict(..., sentences[i])`.  When the encoder returns
`None`, the numpy row assignment `embeddings[i] = None` casts `None`
to NaN and fills the row with NaN. -/
def batch_encode (Ftable : List (String × ℕ)) (embedding_name : String)
    (model : String → List ℚ) (keys : String → Bool) (sentences : List String) :
    List (List PyFloat) :=
  sentences.map (fun s =>
    match encode_from_dict Ftable embedding_name model keys s with
    | some v => v.map PyFloat.fin
    | none => List.replicate (dimOf Ftable embedding_name) PyFloat.nan)

/-- Failure modes of the loading / generation code. -/
inductive UtilError where
  | unsupportedModel : UtilError
  | insufficientCorpus : UtilError
deriving DecidableEq, Repr

/-- `load_embedding_model` from `src/evaluation/embeddings/util.py`:
dispatch on the embedding name; the two supported branches produce the
word2vec or GloVe model (passed in abstractly, since loading is file
I/O), and any other name falls through both branches and crashes at
`return model, keys` with an unbound local — modelled as the failure
case. -/
def load_embedding_model {M K : Type} (w2v : M × K) (glove : M × K)
    (embedding_name : String) : Except UtilError (M × K) :=
  if embedding_name = "word2vec" then Except.ok w2v
  else if embedding_name = "glove" then Except.ok glove
  else Except.error UtilError.unsupportedModel

/-- Dot product of two rational vectors (`np.dot` on equal-length
vectors; excess components of the longer vector are ignored). -/
def dotQ (u v : List ℚ) : ℚ :=
  ((u.zip v).map (fun p => p.1 * p.2)).sum

/-- `scipy.spatial.distance.cosine`:
`1 - dot(u, v) / sqrt(dot(u, u) * dot(v, v))`.  The square root is a
parameter `sq` (real floating square root abstracted over the
rationals); theorems constrain it by its defining property at the
point where it is applied. -/
def scipy_cosine (sq : ℚ → ℚ) (u v : List ℚ) : ℚ :=
  1 - dotQ u v / sq (dotQ u u * dotQ v v)

/-- Entry `(i, j)` of `scipy.spatial.distance.cdist(A, A, metric)`. -/
def cdistM {α : Type} [Inhabited α] (metric : α → α → PyFloat) (A : List α)
    (i j : ℕ) : PyFloat :=
  metric (A.getD i default) (A.getD j default)

/-- `np.tril`: zero out the entries strictly above the diagonal. -/
def trilM (M : ℕ → ℕ → PyFloat) (i j : ℕ) : PyFloat :=
  if j ≤ i then M i j else PyFloat.fin 0

/-- `np.nonzero` on an `N × N` matrix: the index pairs of nonzero
entries, in row-major order (NaN and the infinities count as nonzero). -/
def nonzeroIdx (N : ℕ) (M : ℕ → ℕ → PyFloat) : List (ℕ × ℕ) :=
  ((List.range N).map (fun i =>
    ((List.range N).filter (fun j => npNonzero (M i j))).map (fun j => (i, j)))).flatten

/-- The flattened distance vector `dists[idx1, idx2]` of
`pairwise_metric`, before the validity filter: values of the original
`cdist` matrix at the nonzero positions of its lower triangle. -/
def pairwise_flat {α : Type} [Inhabited α] (metric : α → α → PyFloat)
    (A : List α) : List PyFloat :=
  (nonzeroIdx A.length (trilM (cdistM metric A))).map
    (fun p => cdistM metric A p.1 p.2)

/-- The keep-condition of the cleaning loop in `pairwise_metric`
(`continue` on `isnan(val) or val <= 0 or isinf(val)`). -/
def metricKeep (v : PyFloat) : Bool :=
  !(pyIsNan v || pyLeZero v || pyIsInf v)

/-- `pairwise_metric` from `src/evaluation/embeddings/util.py`:
`cdist(A, A)`, lower-triangle nonzero extraction, then the cleaning
loop. -/
def pairwise_metric {α : Type} [Inhabited α] (metric : α → α → PyFloat)
    (A : List α) : List PyFloat :=
  (pairwise_flat metric A).filter metricKeep

/-- The keep-condition of the inner loop of `pairwise_wmd`
(`continue` on `isnan(d) or d <= 0 or isinf(d)`). -/
def wmdKeep (d : PyFloat) : Bool :=
  !(pyIsNan d || pyLeZero d || pyIsInf d)

/-- Python `str.split()` with no argument (used by `pairwise_wmd`):
split on whitespace runs, discarding empty fields. -/
def pySplitWs (s : String) : List String :=
  (splitSp s.data).filter (fun t => !t.isEmpty) |>.map String.mk

/-- `pairwise_wmd` from `src/evaluation/embeddings/util.py`: tokenize
each sentence with `split()`, then for `i < j` compute
`model.wmdistance` (an abstract optimal-transport primitive `wmd`) and
keep the values passing the inline validity condition. -/
def pairwise_wmd (wmd : List String → List String → PyFloat)
    (sentences : List String) : List PyFloat :=
  let toks := sentences.map pySplitWs
  let n := sentences.length
  ((List.range n).map (fun i =>
    (((List.range n).filter (fun j => i < j)).map
      (fun j => wmd (toks.getD i []) (toks.getD j []))).filter wmdKeep)).flatten

/-- The `cityblock` metric of `scipy.spatial.distance` (sum of absolute
coordinate differences), used to instantiate the abstract metric on
exact inputs. -/
def cityblock (u v : List ℚ) : PyFloat :=
  PyFloat.fin (((u.zip v).map (fun p => |p.1 - p.2|)).sum)

/-! ### Random baseline generator -/

/-- `np.clip(x, lo, hi)`. -/
def pyClip (x lo hi : ℚ) : ℚ :=
  if x < lo then lo else if hi < x then hi else x

/-- Python `int()` on a float: truncation toward zero. -/
def pyTrunc (x : ℚ) : ℤ :=
  if 0 ≤ x then ⌊x⌋ else ⌈x⌉

/-- The sentence-length computation of `_random_sentence`:
`int(np.clip(draw, 2, 15))` where `draw` is the value sampled from
`np.random.lognormal(8, 3)`. -/
def nWords (draw : ℚ) : ℤ := pyTrunc (pyClip draw 2 15)

/-- Sentence length as the specification words it: the log-normal draw
clipped to `[2, 15]` and rounded to the *nearest* integer.  Written
from the spec, to be compared against the code's `nWords`. -/
def specNWords (draw : ℚ) : ℤ := round (pyClip draw 2 15)

/-- `_random_sentence` from `src/evaluation/embeddings/util.py`, with
the random draws made explicit: `draw` is the log-normal sample and
`idx` the indices sampled (with replacement) by `np.random.choice`;
callers guarantee `idx.length = (nWords draw).toNat` and that every
index is in range.  The sentence is built as `" " + vocab[i]` for each
sampled index and passed through `canonicalize`. -/
def _random_sentence (vocab : List String) (idx : List ℕ) : String :=
  canonicalize (String.join (idx.map (fun i => " " ++ vocab.getD i "")))

/-- The `use_corpus=False` branch of `random_sentences`: one
`_random_sentence` per requested sentence, with per-sentence draws
passed explicitly. -/
def random_sentences_vocab (vocab : List String) (draws : List (List ℕ)) :
    List String :=
  draws.map (fun idx => _random_sentence vocab idx)

/-- Modelled from the spec: `evaluation.util.load_paired_json` is not
under `src/`; per §6 the corpus it loads is a mapping from identifiers
to objects with a `"gt"` string, modelled as an association list of
`(gid, gt)` pairs with distinct keys.  The `use_corpus=True` branch of
`random_sentences` draws `n` indices without replacement via
`np.random.choice(len(gids), (n,), replace=False)` — which raises when
`n` exceeds the population (modelled as `insufficientCorpus`) — and
returns the `"gt"` value at each drawn key. -/
def random_sentences_corpus (paired : List (String × String)) (n : ℕ)
    (idxs : List ℕ) : Except UtilError (List String) :=
  if n ≤ paired.length then
    Except.ok (idxs.map (fun i => (paired.getD i ("", "")).2))
  else Except.error UtilError.insufficientCorpus

/-! ## Theorems -/

/-- C1: counterexample — the code accepts the exact zero
(`is_valid_distance` tests `number < 0`, not `number <= 0`), while the
claimed validity predicate (strictly greater than zero) rejects it. -/
theorem C1_counterexample :
    is_valid_distance (some (PyFloat.fin 0)) = true ∧
    specIsValid (some (PyFloat.fin 0)) = false :=
  ⟨by decide, by decide⟩

/-- C1 (amended): `is_valid_distance v` is true iff `v` is non-null,
not NaN, not infinite, and nonnegative; in particular the exact zero is
accepted as valid. -/
theorem C1_is_valid_iff_nonneg :
    (∀ q : ℚ, is_valid_distance (some (PyFloat.fin q)) = true ↔ 0 ≤ q) ∧
    is_valid_distance none = false ∧
    is_valid_distance (some PyFloat.nan) = false ∧
    is_valid_distance (some PyFloat.inf) = false ∧
    is_valid_distance (some PyFloat.ninf) = false ∧
    is_valid_distance (some (PyFloat.fin 0)) = true := by
  refine ⟨fun q => ?_, by decide, by decide, by decide, by decide, by decide⟩
  by_cases h : q < 0
  · simp only [is_valid_distance, pyIsNan, pyIsInf, pyLtZero, h]
    simp [h, not_le.mpr h]
  · simp only [is_valid_distance, pyIsNan, pyIsInf, pyLtZero]
    simp [h, not_lt.mp h]

/-- C1 witness: the amended characterization applied at the concrete
value 3. -/
theorem C1_witness : is_valid_distance (some (PyFloat.fin 3)) = true :=
  (C1_is_valid_iff_nonneg.1 3).mpr (by norm_num)

/-- C5: counterexample — the cleaning loop of `pairwise_metric` drops
the exact zero, although `is_valid_distance` accepts it, so the loop's
output is not the subsequence of elements satisfying the code's
validity predicate. -/
theorem C5_counterexample :
    List.filter metricKeep [PyFloat.fin 0] = [] ∧
    List.filter (fun v => is_valid_distance (some v)) [PyFloat.fin 0] =
      [PyFloat.fin 0] :=
  ⟨by decide, by decide⟩

/-- C5 (amended): the cleaning condition keeps exactly the elements
that are valid (in the sense of `is_valid_distance`) *and* nonzero,
i.e. the finite strictly positive values; it is literally the same
condition in the WMD path; filtering is order-preserving (a sublist of
the input); and the spec's worked example holds. -/
theorem C5_filter_policy :
    (∀ v, metricKeep v = (is_valid_distance (some v) && npNonzero v)) ∧
    (∀ v, wmdKeep v = metricKeep v) ∧
    (∀ l : List PyFloat, (l.filter metricKeep).Sublist l) ∧
    List.filter metricKeep
        [PyFloat.nan, PyFloat.fin 1, PyFloat.fin (-1), PyFloat.inf,
         PyFloat.fin (1 / 2)] =
      [PyFloat.fin 1, PyFloat.fin (1 / 2)] := by
  refine ⟨fun v => ?_, fun v => rfl, fun l => List.filter_sublist l, ?_⟩
  · cases v with
    | nan => rfl
    | inf => rfl
    | ninf => rfl
    | fin q =>
      simp only [metricKeep, is_valid_distance, pyIsNan, pyIsInf, pyLtZero,
        pyLeZero, npNonzero, Bool.or_false, Bool.false_or, if_false]
      rcases lt_trichotomy q 0 with h | h | h
      · simp [h, le_of_lt h]
      · subst h; norm_num
      · simp [not_lt.mpr (le_of_lt h), not_le.mpr h, ne_of_gt h]
  · norm_num [List.filter, metricKeep, pyIsNan, pyIsInf, pyLeZero]

/-- C8: for every embedding name outside the supported set
(word2vec, glove), `load_embedding_model` fails (the code falls off
both branches and crashes; the specification calls this failure
`UnsupportedModelError`). -/
theorem C8_load_unsupported {M K : Type} (w2v glove : M × K) (name : String)
    (h1 : name ≠ "word2vec") (h2 : name ≠ "glove") :
    load_embedding_model w2v glove name =
      Except.error UtilError.unsupportedModel := by
  simp [load_embedding_model, h1, h2]

/-- C8 witness: the unsupported name "bert" fails. -/
theorem C8_witness :
    load_embedding_model ((), ()) ((), ()) "bert" =
      Except.error UtilError.unsupportedModel :=
  C8_load_unsupported ((), ()) ((), ()) "bert" (by decide) (by decide)

/-- C9: cosine distance of a nonzero vector with itself is exactly zero,
for any square-root function satisfying its defining property at the
evaluated point (`sq (d * d) = d` where `d = dotQ A A`). -/
theorem C9_cosine_self_zero (sq : ℚ → ℚ) (A : List ℚ)
    (hsq : sq (dotQ A A * dotQ A A) = dotQ A A) (hA : dotQ A A ≠ 0) :
    scipy_cosine sq A A = 0 := by
  unfold scipy_cosine
  rw [hsq]
  field_simp

/-- C9 witness: the vector (3, 4) has squared norm 25, a perfect
square, so the property holds with the exact square root. -/
theorem C9_witness :
    scipy_cosine (fun x => if x = 625 then 25 else 0) [3, 4] [3, 4] = 0 :=
  C9_cosine_self_zero _ [3, 4] (by norm_num [dotQ]) (by norm_num [dotQ])

/-- C7: counterexample — the corpus branch draws distinct *indices*,
not distinct strings: over a two-entry corpus whose entries share the
same "gt" value, the only full without-replacement draw returns the
same string twice. -/
theorem C7_counterexample :
    random_sentences_corpus [("g1", "a"), ("g2", "a")] 2 [0, 1] =
      Except.ok ["a", "a"] ∧
    [0, 1].Nodup ∧ (∀ i ∈ [0, 1], i < 2) ∧ ¬ (["a", "a"].Nodup) :=
  ⟨rfl, by decide, by decide, by decide⟩

/-- C7 (amended): with `n` distinct in-range indices drawn without
replacement, the corpus branch succeeds iff the corpus has at least `n`
entries, returns `n` strings each of which is a "gt" value of the
corpus, and the returned strings are pairwise distinct whenever the
corpus's "gt" values are pairwise distinct. -/
theorem C7_corpus_sampling (paired : List (String × String)) (n : ℕ)
    (idxs : List ℕ) (hlen : idxs.length = n) (hnd : idxs.Nodup)
    (hrange : ∀ i ∈ idxs, i < paired.length) :
    (n ≤ paired.length →
      random_sentences_corpus paired n idxs =
        Except.ok (idxs.map (fun i => (paired.getD i ("", "")).2)) ∧
      (idxs.map (fun i => (paired.getD i ("", "")).2)).length = n ∧
      (∀ s ∈ idxs.map (fun i => (paired.getD i ("", "")).2),
        ∃ p ∈ paired, p.2 = s) ∧
      ((paired.map Prod.snd).Nodup →
        (idxs.map (fun i => (paired.getD i ("", "")).2)).Nodup)) ∧
    (paired.length < n →
      random_sentences_corpus paired n idxs =
        Except.error UtilError.insufficientCorpus) := by
  constructor
  · intro hle
    refine ⟨by simp [random_sentences_corpus, hle], by simp [hlen], ?_, ?_⟩
    · intro s hs
      rcases List.mem_map.mp hs with ⟨i, hi, rfl⟩
      have hilt : i < paired.length := hrange i hi
      refine ⟨paired.getD i ("", ""), ?_, rfl⟩
      rw [List.getD_eq_getElem paired ("", "") hilt]
      exact List.getElem_mem hilt
    · intro hsnd
      refine List.Nodup.map_on ?_ hnd
      intro i hi j hj hij
      have hilt : i < paired.length := hrange i hi
      have hjlt : j < paired.length := hrange j hj
      rw [List.getD_eq_getElem paired ("", "") hilt,
        List.getD_eq_getElem paired ("", "") hjlt] at hij
      have hilt' : i < (paired.map Prod.snd).length := by simpa using hilt
      have hjlt' : j < (paired.map Prod.snd).length := by simpa using hjlt
      have hmap : (paired.map Prod.snd).get ⟨i, hilt'⟩ =
          (paired.map Prod.snd).get ⟨j, hjlt'⟩ := by
        simpa using hij
      have hfin := (List.Nodup.get_inj_iff hsnd).mp hmap
      simpa using hfin
  · intro hgt
    simp [random_sentences_corpus, Nat.not_le.mpr hgt]

/-- C7 witness: a two-entry corpus with distinct "gt" values and the
full draw `[1, 0]`. -/
theorem C7_witness :
    random_sentences_corpus [("g1", "a"), ("g2", "b")] 2 [1, 0] =
      Except.ok ["b", "a"] ∧ (["b", "a"] : List String).Nodup := by
  have h := (C7_corpus_sampling [("g1", "a"), ("g2", "b")] 2 [1, 0]
    (by decide) (by decide) (by decide)).1 (by decide)
  exact ⟨h.1, by decide⟩

/-- Auxiliary: filtering a range by a predicate that is a cut-off at
`i` yields the range of `i`. -/
theorem filter_range_cutoff (N i : ℕ) (hi : i ≤ N) (p : ℕ → Bool)
    (hp : ∀ j, j < N → (p j = true ↔ j < i)) :
    (List.range N).filter p = List.range i := by
  induction N with
  | zero =>
    have h0 : i = 0 := Nat.le_zero.mp hi
    subst h0; rfl
  | succ n ih =>
    by_cases hin : i ≤ n
    · rw [List.range_succ, List.filter_append]
      have hn : p n = false := by
        rcases Bool.eq_false_or_eq_true (p n) with h0 | h1
        · exact absurd ((hp n (Nat.lt_succ_self n)).mp h0) (by omega)
        · exact h1
      rw [ih hin (fun j hj => hp j (Nat.lt_succ_of_lt hj))]
      simp [hn]
    · have hieq : i = n + 1 := by omega
      subst hieq
      refine List.filter_eq_self.mpr (fun j hj => ?_)
      exact (hp j (List.mem_range.mp hj)).mpr (List.mem_range.mp hj)

/-- Auxiliary: twice the sum of `range N` is `N * (N - 1)`. -/
theorem two_mul_sum_range (N : ℕ) : 2 * (List.range N).sum = N * (N - 1) := by
  induction N with
  | zero => rfl
  | succ n ih =>
    rw [List.range_succ, List.sum_append]
    simp only [List.sum_cons, List.sum_nil, add_zero]
    cases n with
    | zero => rfl
    | succ m =>
      calc 2 * ((List.range (m + 1)).sum + (m + 1))
          = 2 * (List.range (m + 1)).sum + 2 * (m + 1) := by ring
        _ = (m + 1) * m + 2 * (m + 1) := by rw [ih]; simp
        _ = (m + 1 + 1) * (m + 1 + 1 - 1) := by simp; ring

/-- Auxiliary: the strictly-lower-triangle index list of an `N × N`
matrix has `N * (N - 1) / 2` entries. -/
theorem lowerTriIdx_length (N : ℕ) :
    (((List.range N).map (fun i => (List.range i).map (fun j => (i, j)))).flatten).length
      = N * (N - 1) / 2 := by
  have h2 : 2 * (((List.range N).map
      (fun i => (List.range i).map (fun j => (i, j)))).flatten).length = N * (N - 1) := by
    rw [List.length_flatten, List.map_map]
    have hmap : (List.range N).map
        (List.length ∘ fun i => (List.range i).map (fun j => (i, j))) =
        List.range N := by
      have : (List.length ∘ fun i => (List.range i).map (fun (j : ℕ) => (i, j))) =
          fun i => i := by
        funext i
        simp
      rw [this, List.map_id']
    rw [hmap]
    exact two_mul_sum_range N
  omega

/-- C2: counterexample — with the (scipy) cityblock metric on two
identical one-dimensional rows, the distance between the two distinct
rows is exactly 0 and `np.nonzero` discards it together with the
diagonal, so the pre-filter sequence has 0 entries, not
`N(N-1)/2 = 1`. -/
theorem C2_counterexample :
    pairwise_flat cityblock [[(0 : ℚ)], [0]] = [] ∧
    (pairwise_flat cityblock [[(0 : ℚ)], [0]]).length ≠ 2 * (2 - 1) / 2 := by
  have h : pairwise_flat cityblock [[(0 : ℚ)], [0]] = [] := by
    simp [pairwise_flat, nonzeroIdx, trilM, cdistM, cityblock, npNonzero,
      List.range_succ]
  exact ⟨h, by rw [h]; decide⟩

/-- C2 (amended): when every diagonal entry of the cdist matrix is
exactly zero and every strictly-lower entry is nonzero, the pre-filter
extraction selects precisely the strictly-lower-triangle positions in
row-major order, hence exactly `N(N-1)/2` entries, and every selected
position is strictly below the diagonal (no self-comparison). -/
theorem C2_pairwise_lower_triangle {α : Type} [Inhabited α]
    (metric : α → α → PyFloat) (A : List α)
    (hdiag : ∀ i < A.length, cdistM metric A i i = PyFloat.fin 0)
    (hoff : ∀ i < A.length, ∀ j < i, npNonzero (cdistM metric A i j) = true) :
    nonzeroIdx A.length (trilM (cdistM metric A)) =
      ((List.range A.length).map (fun i => (List.range i).map (fun j => (i, j)))).flatten ∧
    (pairwise_flat metric A).length = A.length * (A.length - 1) / 2 ∧
    (∀ p ∈ nonzeroIdx A.length (trilM (cdistM metric A)), p.2 < p.1) := by
  have hmain : nonzeroIdx A.length (trilM (cdistM metric A)) =
      ((List.range A.length).map (fun i => (List.range i).map (fun j => (i, j)))).flatten := by
    unfold nonzeroIdx
    congr 1
    refine List.map_congr_left (fun i hi => ?_)
    have hiN : i < A.length := List.mem_range.mp hi
    have hfil : (List.range A.length).filter
        (fun j => npNonzero (trilM (cdistM metric A) i j)) = List.range i := by
      refine filter_range_cutoff A.length i (le_of_lt hiN) _ (fun j hj => ?_)
      constructor
      · intro hpj
        by_contra hji
        push_neg at hji
        rcases eq_or_lt_of_le hji with heq | hlt
        · rw [trilM, if_pos (le_of_eq heq.symm), ← heq, hdiag i hiN] at hpj
          simp [npNonzero] at hpj
        · rw [trilM, if_neg (by omega)] at hpj
          simp [npNonzero] at hpj
      · intro hji
        rw [trilM, if_pos (le_of_lt hji)]
        exact hoff i hiN j hji
    rw [hfil]
  refine ⟨hmain, ?_, ?_⟩
  · unfold pairwise_flat
    rw [List.length_map, hmain, lowerTriIdx_length]
  · intro p hp
    rw [hmain] at hp
    simp only [List.mem_flatten, List.mem_map, List.mem_range] at hp
    obtain ⟨row, ⟨i, hiN, rfl⟩, hprow⟩ := hp
    obtain ⟨j, hj, rfl⟩ := List.mem_map.mp hprow
    simpa using List.mem_range.mp hj

/-- C2 witness: three one-dimensional rows 0, 1, 3 under the cityblock
metric satisfy the hypotheses, and the extraction yields the three
strictly-lower positions. -/
theorem C2_witness :
    nonzeroIdx 3 (trilM (cdistM cityblock [[(0 : ℚ)], [1], [3]])) =
      [(1, 0), (2, 0), (2, 1)] ∧
    (pairwise_flat cityblock [[(0 : ℚ)], [1], [3]]).length = 3 := by
  have h := C2_pairwise_lower_triangle cityblock [[(0 : ℚ)], [1], [3]]
    (by
      intro i hi
      have hi3 : i < 3 := by simpa using hi
      interval_cases i <;> norm_num [cdistM, cityblock])
    (by
      intro i hi j hj
      have hi3 : i < 3 := by simpa using hi
      interval_cases i <;> interval_cases j <;>
        norm_num [cdistM, cityblock, npNonzero])
  refine ⟨h.1.trans (by decide), h.2.1.trans (by norm_num)⟩

/-- Auxiliary: `getD` on the image of a range picks out the function
value. -/
theorem getD_map_range {β : Type} (n : ℕ) (f : ℕ → β) (j : ℕ) (d : β)
    (h : j < n) : ((List.range n).map f).getD j d = f j := by
  rw [List.getD_eq_getElem _ d (by simpa using h)]
  simp

/-- C3: `encode_from_dict` returns `None` iff no space-separated token
of the sentence is in the vocabulary set; otherwise the result has
exactly dimension `F[embedding_name]` and component `j` is the
arithmetic mean of component `j` of the covered tokens' vectors; and
the spec's worked example (a two-dimensional family) evaluates to
`[1/2, 1/2]`. -/
theorem C3_encode_spec :
    (∀ (Ft : List (String × ℕ)) (name : String) (model : String → List ℚ)
        (keys : String → Bool) (s : String),
      (encode_from_dict Ft name model keys s = none ↔
        ∀ w ∈ pySplitSp s, keys w = false) ∧
      (∀ v, encode_from_dict Ft name model keys s = some v →
        v.length = dimOf Ft name ∧
        ∀ j, j < dimOf Ft name →
          v.getD j 0 =
            (((pySplitSp s).filter (fun w => keys w)).map
                (fun w => (model w).getD j 0)).sum /
              ((pySplitSp s).filter (fun w => keys w)).length)) ∧
    encode_from_dict [("toy", 2)] "toy"
      (fun w => if w = "hello" then [1, 0] else if w = "world" then [0, 1] else [])
      (fun w => w = "hello" || w = "world") "hello world foo" =
      some [1 / 2, 1 / 2] := by
  constructor
  · intro Ft name model keys s
    constructor
    · constructor
      · intro hnone
        unfold encode_from_dict at hnone
        by_cases h : ((pySplitSp s).filter (fun w => keys w)).length = 0
        · have hnil := List.length_eq_zero.mp h
          intro w hw
          by_contra hkw
          have hmem : w ∈ (pySplitSp s).filter (fun w => keys w) :=
            List.mem_filter.mpr ⟨hw, by simpa using hkw⟩
          rw [hnil] at hmem
          exact absurd hmem (List.not_mem_nil w)
        · rw [if_neg h] at hnone
          exact absurd hnone (by simp)
      · intro hall
        unfold encode_from_dict
        have h : ((pySplitSp s).filter (fun w => keys w)).length = 0 := by
          rw [List.length_eq_zero, List.filter_eq_nil_iff]
          intro w hw
          simp [hall w hw]
        rw [if_pos h]
    · intro v hv
      unfold encode_from_dict at hv
      by_cases h : ((pySplitSp s).filter (fun w => keys w)).length = 0
      · rw [if_pos h] at hv
        exact absurd hv (by simp)
      · rw [if_neg h] at hv
        have hv' := Option.some.inj hv
        subst hv'
        refine ⟨by simp, fun j hj => ?_⟩
        rw [getD_map_range _ _ _ _ hj]
  · have hcov : List.filter (fun w => decide (w = "hello") || decide (w = "world"))
        (pySplitSp "hello world foo") = ["hello", "world"] := by decide
    simp only [encode_from_dict, hcov]
    have hr : List.range (dimOf [("toy", 2)] "toy") = [0, 1] := by decide
    have hw : (("world" : String) = "hello") = False := by simp
    rw [hr]
    simp only [List.map_cons, List.map_nil, hw, if_false, if_true, if_pos rfl]
    norm_num

/-- C3 witness: the None-iff-uncovered characterization applied to a
sentence with an empty vocabulary. -/
theorem C3_witness :
    encode_from_dict [("toy", 2)] "toy" (fun _ => []) (fun _ => false) "x y" =
      none :=
  ((C3_encode_spec.1 [("toy", 2)] "toy" (fun _ => []) (fun _ => false)
    "x y").1).mpr (by decide)

/-- C4: counterexample — a sentence with no vocabulary-covered token is
represented in the batch matrix as an all-NaN row (numpy casts the
`None` returned by the encoder to NaN on row assignment), not as an
all-zero row. -/
theorem C4_counterexample :
    batch_encode [("toy", 1)] "toy" (fun _ => [0]) (fun _ => false) ["x"] =
      [[PyFloat.nan]] ∧
    [[PyFloat.nan]] ≠ [[PyFloat.fin 0]] :=
  ⟨rfl, by decide⟩

/-- C4 (amended): the batch matrix has one row per input sentence, in
input order: row `i` is the encoding of sentence `i` when it encodes,
and the all-NaN row of width `F[embedding_name]` when it does not. -/
theorem C4_batch_rows (Ft : List (String × ℕ)) (name : String)
    (model : String → List ℚ) (keys : String → Bool)
    (sentences : List String) :
    (batch_encode Ft name model keys sentences).length = sentences.length ∧
    ∀ i, i < sentences.length →
      ((encode_from_dict Ft name model keys (sentences.getD i "") = none →
          (batch_encode Ft name model keys sentences).getD i [] =
            List.replicate (dimOf Ft name) PyFloat.nan) ∧
        ∀ v, encode_from_dict Ft name model keys (sentences.getD i "") = some v →
          (batch_encode Ft name model keys sentences).getD i [] =
            v.map PyFloat.fin) := by
  refine ⟨by simp [batch_encode], fun i hi => ?_⟩
  have hrow : (batch_encode Ft name model keys sentences).getD i [] =
      (match encode_from_dict Ft name model keys (sentences.getD i "") with
        | some v => v.map PyFloat.fin
        | none => List.replicate (dimOf Ft name) PyFloat.nan) := by
    unfold batch_encode
    rw [List.getD_eq_getElem _ _ (by simpa using hi), List.getElem_map,
      ← List.getD_eq_getElem sentences "" hi]
  exact ⟨fun hnone => by rw [hrow, hnone], fun v hv => by rw [hrow, hv]⟩

/-- C4 witness: the batch row of the uncoverable sentence "x" is the
all-NaN row. -/
theorem C4_witness :
    (batch_encode [("toy", 1)] "toy" (fun _ => [0]) (fun _ => false)
      ["x"]).getD 0 [] = List.replicate 1 PyFloat.nan :=
  ((C4_batch_rows [("toy", 1)] "toy" (fun _ => [0]) (fun _ => false)
    ["x"]).2 0 (by norm_num)).1 rfl

/-! ### Lemmas on `canonicalize` over plain lower-case words -/

/-- Auxiliary: mapping a function that fixes every element is the
identity. -/
theorem map_id_of_mem {α : Type} (l : List α) (f : α → α)
    (h : ∀ a ∈ l, f a = a) : l.map f = l :=
  (List.map_congr_left h).trans (List.map_id l)

/-- Auxiliary: `asciiLower` fixes lower-case letters. -/
theorem asciiLower_of_lower (c : Char) (h : isLowerAlpha c = true) :
    asciiLower c = c := by
  unfold isLowerAlpha at h
  simp only [Bool.and_eq_true, decide_eq_true_eq] at h
  unfold asciiLower
  rw [if_neg]
  simp only [Bool.and_eq_true, decide_eq_true_eq, not_and]
  omega

/-- Auxiliary: lower-case letters are not punctuation. -/
theorem notPunct_of_lower (c : Char) (h : isLowerAlpha c = true) :
    (!isPunct c) = true := by
  unfold isLowerAlpha at h
  simp only [Bool.and_eq_true, decide_eq_true_eq] at h
  cases hb : isPunct c with
  | false => rfl
  | true =>
    exfalso
    unfold isPunct at hb
    simp only [Bool.or_eq_true, Bool.and_eq_true, decide_eq_true_eq] at hb
    omega

/-- Auxiliary: lower-case letters are not whitespace. -/
theorem notSpace_of_lower (c : Char) (h : isLowerAlpha c = true) :
    isPySpaceC c = false := by
  cases hb : isPySpaceC c with
  | false => rfl
  | true =>
    exfalso
    unfold isPySpaceC at hb
    simp only [Bool.or_eq_true, decide_eq_true_eq] at hb
    rcases hb with ((((h1 | h1) | h1) | h1) | h1) | h1 <;>
      (subst h1; revert h; decide)

/-- Auxiliary: lower-case letters are not the space character. -/
theorem ne_space_of_lower (c : Char) (h : isLowerAlpha c = true) :
    c ≠ ' ' := by
  intro heq
  subst heq
  revert h
  decide

/-- Auxiliary: characters of the flattened space-prefixed token list
are spaces or token characters. -/
theorem mem_spaced_flatten {ts : List (List Char)} {c : Char}
    (hc : c ∈ (ts.map (fun t => ' ' :: t)).flatten) :
    c = ' ' ∨ ∃ t ∈ ts, c ∈ t := by
  rcases List.mem_flatten.mp hc with ⟨l, hl, hcl⟩
  rcases List.mem_map.mp hl with ⟨t, ht, rfl⟩
  rcases List.mem_cons.mp hcl with h | h
  · exact Or.inl h
  · exact Or.inr ⟨t, ht, h⟩

/-- Auxiliary: `splitSp` never returns the empty list. -/
theorem splitSp_ne_nil (cs : List Char) : splitSp cs ≠ [] := by
  induction cs with
  | nil => simp [splitSp]
  | cons c rest ih =>
    unfold splitSp
    by_cases h : c = ' '
    · simp [h]
    · rcases hsp : splitSp rest with _ | ⟨t, ts⟩
      · exact absurd hsp ih
      · simp [h, hsp]

/-- Auxiliary: `splitSp` after a leading space. -/
theorem splitSp_space (cs : List Char) :
    splitSp (' ' :: cs) = [] :: splitSp cs := by
  simp [splitSp]

/-- Auxiliary: `splitSp` after a space-free token prefix. -/
theorem splitSp_append_token (t cs : List Char) (u : List Char)
    (us : List (List Char)) (ht : ∀ c ∈ t, c ≠ ' ')
    (h : splitSp cs = u :: us) : splitSp (t ++ cs) = (t ++ u) :: us := by
  induction t with
  | nil => simpa using h
  | cons c t' ih =>
    have hc : c ≠ ' ' := ht c (List.mem_cons_self c t')
    have ih' := ih (fun x hx => ht x (List.mem_cons_of_mem c hx))
    show splitSp (c :: (t' ++ cs)) = _
    unfold splitSp
    rw [if_neg hc, ih']
    rfl

/-- Auxiliary: splitting the flattened space-prefixed token list
recovers the empty leading field followed by the tokens. -/
theorem splitSp_spaced_flatten (ts : List (List Char))
    (h : ∀ t ∈ ts, ∀ c ∈ t, c ≠ ' ') :
    splitSp ((ts.map (fun t => ' ' :: t)).flatten) = [] :: ts := by
  induction ts with
  | nil => rfl
  | cons t rest ih =>
    have ihr := ih (fun t' ht' => h t' (List.mem_cons_of_mem t ht'))
    simp only [List.map_cons, List.flatten_cons, List.cons_append]
    rw [splitSp_space,
      splitSp_append_token t _ [] rest (h t (List.mem_cons_self t rest)) ihr]
    simp

/-- Auxiliary: splitting a space-joined token list recovers the
tokens. -/
theorem splitSp_joinSp (ts : List (List Char)) (hne : ts ≠ [])
    (h : ∀ t ∈ ts, ∀ c ∈ t, c ≠ ' ') : splitSp (joinSp ts) = ts := by
  induction ts with
  | nil => exact absurd rfl hne
  | cons t rest ih =>
    cases rest with
    | nil =>
      have h0 : splitSp (t ++ ([] : List Char)) = (t ++ []) :: [] :=
        splitSp_append_token t [] [] [] (h t (List.mem_cons_self t [])) rfl
      simpa [joinSp] using h0
    | cons t2 rest2 =>
      have ihr := ih (by simp) (fun t' ht' => h t' (List.mem_cons_of_mem t ht'))
      show splitSp (t ++ ' ' :: joinSp (t2 :: rest2)) = t :: t2 :: rest2
      have hs : splitSp (' ' :: joinSp (t2 :: rest2)) = [] :: t2 :: rest2 := by
        rw [splitSp_space, ihr]
      have h0 := splitSp_append_token t _ [] (t2 :: rest2)
        (h t (List.mem_cons_self t _)) hs
      simpa using h0

/-- Auxiliary: `canonToken` fixes the empty token. -/
theorem canonToken_nil : canonToken [] = [] := by decide

/-- Auxiliary: association lookup misses when the key differs from
every stored key. -/
theorem lookup_none_of_ne (l : List (String × String)) (s : String)
    (h : ∀ kv ∈ l, s ≠ kv.1) : l.lookup s = none := by
  induction l with
  | nil => rfl
  | cons kv rest ih =>
    have hne : (s == kv.1) = false :=
      beq_eq_false_iff_ne.mpr (h kv (List.mem_cons_self kv rest))
    simp only [List.lookup, hne]
    exact ih (fun kv' hkv' => h kv' (List.mem_cons_of_mem kv hkv'))

/-- Auxiliary: every key of the `ordinals` table starts with a digit
character. -/
theorem ordinals_keys_start_digit :
    ∀ kv ∈ ordinals, (kv.1.data.head?.getD 'a').toNat ≤ 57 := by
  decide

/-- Auxiliary: `canonToken` fixes nonempty lower-case alphabetic
tokens (they are neither digit strings nor ordinal keys). -/
theorem canonToken_fix (t : List Char) (h1 : t ≠ [])
    (h2 : ∀ c ∈ t, isLowerAlpha c = true) : canonToken t = t := by
  obtain ⟨c, t', rfl⟩ : ∃ c t', t = c :: t' := by
    cases t with
    | nil => exact absurd rfl h1
    | cons c t' => exact ⟨c, t', rfl⟩
  have hc := h2 c (List.mem_cons_self c t')
  have hcNat : 97 ≤ c.toNat := by
    unfold isLowerAlpha at hc
    simp only [Bool.and_eq_true, decide_eq_true_eq] at hc
    exact hc.1
  unfold canonToken
  have hdig : isdigitL (c :: t') = false := by
    unfold isdigitL
    have hnd : ¬ (c.toNat ≤ 57) := by omega
    simp [List.all_cons, hnd]
  rw [if_neg (by simp [hdig])]
  have hlook : ordinals.lookup (String.mk (c :: t')) = none := by
    apply lookup_none_of_ne
    intro kv hkv heq
    have hd : (c :: t') = kv.1.data := congrArg String.data heq
    have hle := ordinals_keys_start_digit kv hkv
    rw [← hd] at hle
    simp only [List.head?_cons, Option.getD_some] at hle
    omega
  rw [hlook]
  rfl

/-- Auxiliary: characters of a space-joined token list are spaces or
token characters. -/
theorem mem_joinSp {ts : List (List Char)} {c : Char}
    (hc : c ∈ joinSp ts) : c = ' ' ∨ ∃ t ∈ ts, c ∈ t := by
  induction ts with
  | nil => simp [joinSp] at hc
  | cons t rest ih =>
    cases rest with
    | nil =>
      exact Or.inr ⟨t, List.mem_cons_self t [], by simpa [joinSp] using hc⟩
    | cons t2 rest2 =>
      rw [show joinSp (t :: t2 :: rest2) = t ++ ' ' :: joinSp (t2 :: rest2)
        from rfl] at hc
      rcases List.mem_append.mp hc with h | h
      · exact Or.inr ⟨t, List.mem_cons_self t _, h⟩
      · rcases List.mem_cons.mp h with h' | h'
        · exact Or.inl h'
        · rcases ih h' with h'' | ⟨t', ht', hct'⟩
          · exact Or.inl h''
          · exact Or.inr ⟨t', List.mem_cons_of_mem t ht', hct'⟩

/-- Auxiliary: `mergeSpacesC` passes over a space-free nonempty token
prefix. -/
theorem mergeSp_token (t cs : List Char) (h1 : t ≠ [])
    (h2 : ∀ c ∈ t, c ≠ ' ') :
    mergeSpacesC (t ++ cs) = t ++ mergeSpacesC cs := by
  induction t with
  | nil => exact absurd rfl h1
  | cons c t' ih =>
    have hc : c ≠ ' ' := h2 c (List.mem_cons_self c t')
    cases t' with
    | nil =>
      cases cs with
      | nil => simp [mergeSpacesC]
      | cons d cs' =>
        show mergeSpacesC (c :: d :: cs') = c :: mergeSpacesC (d :: cs')
        simp only [mergeSpacesC]
        rw [if_neg (by simp [hc])]
    | cons c2 t'' =>
      have ih' := ih (by simp) (fun x hx => h2 x (List.mem_cons_of_mem c hx))
      show mergeSpacesC (c :: c2 :: (t'' ++ cs)) = _
      simp only [mergeSpacesC]
      rw [if_neg (by simp [hc])]
      show c :: mergeSpacesC ((c2 :: t'') ++ cs) = _
      rw [ih']
      rfl

/-- Auxiliary: `mergeSpacesC` fixes a single leading space followed by
a space-joined list of nonempty space-free tokens. -/
theorem mergeSp_lead (ts : List (List Char))
    (h : ∀ t ∈ ts, t ≠ [] ∧ ∀ c ∈ t, c ≠ ' ') :
    mergeSpacesC (' ' :: joinSp ts) = ' ' :: joinSp ts := by
  induction ts with
  | nil => simp [joinSp, mergeSpacesC]
  | cons t rest ih =>
    obtain ⟨c, t', rfl⟩ : ∃ c t'', t = c :: t'' := by
      rcases h t (List.mem_cons_self t rest) with ⟨h1, _⟩
      cases t with
      | nil => exact absurd rfl h1
      | cons c t'' => exact ⟨c, t'', rfl⟩
    have hc : c ≠ ' ' :=
      (h _ (List.mem_cons_self _ rest)).2 c (List.mem_cons_self c t')
    cases rest with
    | nil =>
      show mergeSpacesC (' ' :: c :: t') = ' ' :: c :: t'
      simp only [mergeSpacesC]
      rw [if_neg (by simp [hc])]
      have h0 : mergeSpacesC ((c :: t') ++ []) = (c :: t') ++ mergeSpacesC [] :=
        mergeSp_token (c :: t') [] (by simp)
          (h _ (List.mem_cons_self _ [])).2
      simpa [mergeSpacesC] using h0
    | cons t2 rest2 =>
      have ihr := ih (fun t' ht' => h t' (List.mem_cons_of_mem _ ht'))
      show mergeSpacesC (' ' :: c :: (t' ++ ' ' :: joinSp (t2 :: rest2))) =
        ' ' :: ((c :: t') ++ ' ' :: joinSp (t2 :: rest2))
      simp only [mergeSpacesC]
      rw [if_neg (by simp [hc])]
      have h0 := mergeSp_token (c :: t') (' ' :: joinSp (t2 :: rest2))
        (by simp) (h _ (List.mem_cons_self _ _)).2
      show ' ' :: mergeSpacesC ((c :: t') ++ (' ' :: joinSp (t2 :: rest2))) = _
      rw [h0, ihr]

/-- Auxiliary: a space-joined list of nonempty tokens is nonempty. -/
theorem joinSp_ne_nil (ts : List (List Char)) (hne : ts ≠ [])
    (h : ∀ t ∈ ts, t ≠ []) : joinSp ts ≠ [] := by
  cases ts with
  | nil => exact absurd rfl hne
  | cons t rest =>
    cases rest with
    | nil => simpa [joinSp] using h t (List.mem_cons_self t [])
    | cons t2 rest2 =>
      show t ++ ' ' :: joinSp (t2 :: rest2) ≠ []
      simp

/-- Auxiliary: the head of a space-joined token list is the head of
its first token. -/
theorem joinSp_head (t : List Char) (rest : List (List Char)) (c : Char)
    (t' : List Char) (ht : t = c :: t') :
    ∃ cs', joinSp (t :: rest) = c :: cs' := by
  subst ht
  cases rest with
  | nil => exact ⟨t', rfl⟩
  | cons t2 rest2 => exact ⟨t' ++ ' ' :: joinSp (t2 :: rest2), rfl⟩

/-- Auxiliary: the last element of a space-joined list of nonempty
tokens is a character of one of the tokens. -/
theorem joinSp_getLast (ts : List (List Char)) (hne : ts ≠ [])
    (h : ∀ t ∈ ts, t ≠ []) :
    ∃ c, (joinSp ts).getLast? = some c ∧ ∃ t ∈ ts, c ∈ t := by
  induction ts with
  | nil => exact absurd rfl hne
  | cons t rest ih =>
    cases rest with
    | nil =>
      have ht := h t (List.mem_cons_self t [])
      have hjne : joinSp [t] ≠ [] := by simpa [joinSp] using ht
      refine ⟨(joinSp [t]).getLast hjne, ?_, t, List.mem_cons_self t [], ?_⟩
      · exact List.getLast?_eq_getLast _ _
      · exact List.getLast_mem hjne
    | cons t2 rest2 =>
      obtain ⟨c, hlast, t', ht', hct'⟩ := ih (by simp)
        (fun x hx => h x (List.mem_cons_of_mem t hx))
      refine ⟨c, ?_, t', List.mem_cons_of_mem t ht', hct'⟩
      show (t ++ ' ' :: joinSp (t2 :: rest2)).getLast? = some c
      have hjne : joinSp (t2 :: rest2) ≠ [] :=
        joinSp_ne_nil _ (by simp) (fun x hx => h x (List.mem_cons_of_mem t hx))
      rw [List.getLast?_append_of_ne_nil _ (by simp)]
      obtain ⟨x, xs, hxx⟩ : ∃ x xs, joinSp (t2 :: rest2) = x :: xs := by
        cases hj : joinSp (t2 :: rest2) with
        | nil => exact absurd hj hjne
        | cons x xs => exact ⟨x, xs, rfl⟩
      rw [hxx] at hlast ⊢
      rw [List.getLast?_cons_cons]
      exact hlast

/-- Auxiliary: `stripPy` removes exactly the leading space of the
canonical one-leading-space form. -/
theorem stripPy_lead (ts : List (List Char)) (hne : ts ≠ [])
    (h : ∀ t ∈ ts, t ≠ [] ∧ ∀ c ∈ t, isLowerAlpha c = true) :
    stripPy (' ' :: joinSp ts) = joinSp ts := by
  obtain ⟨t0, ts', rfl⟩ : ∃ t0 ts', ts = t0 :: ts' := by
    cases ts with
    | nil => exact absurd rfl hne
    | cons a b => exact ⟨a, b, rfl⟩
  obtain ⟨c0, t0', ht0⟩ : ∃ c0 t0', t0 = c0 :: t0' := by
    rcases h t0 (List.mem_cons_self _ _) with ⟨h1, _⟩
    cases t0 with
    | nil => exact absurd rfl h1
    | cons a b => exact ⟨a, b, rfl⟩
  have hc0 : isLowerAlpha c0 = true := by
    have hall := (h t0 (List.mem_cons_self _ _)).2
    rw [ht0] at hall
    exact hall c0 (List.mem_cons_self _ _)
  obtain ⟨cs', hj⟩ := joinSp_head t0 ts' c0 t0' ht0
  unfold stripPy
  rw [List.dropWhile_cons, if_pos (by decide), hj, List.dropWhile_cons,
    if_neg (by simp [notSpace_of_lower c0 hc0])]
  obtain ⟨cl, hlast, t, ht, hcl⟩ := joinSp_getLast (t0 :: ts') (by simp)
    (fun x hx => (h x hx).1)
  have hclLower : isLowerAlpha cl = true := (h t ht).2 cl hcl
  rw [← hj]
  obtain ⟨d, ds, hrev⟩ : ∃ d ds, (joinSp (t0 :: ts')).reverse = d :: ds := by
    have hrne : (joinSp (t0 :: ts')).reverse ≠ [] := by
      simp [joinSp_ne_nil (t0 :: ts') (by simp) (fun x hx => (h x hx).1)]
    cases hr : (joinSp (t0 :: ts')).reverse with
    | nil => exact absurd hr hrne
    | cons d ds => exact ⟨d, ds, rfl⟩
  have hd : d = cl := by
    have h1 : (joinSp (t0 :: ts')).reverse.head? = some d := by
      rw [hrev]; rfl
    rw [List.head?_reverse, hlast] at h1
    exact (Option.some.inj h1).symm
  rw [hrev, List.dropWhile_cons,
    if_neg (by simp [hd, notSpace_of_lower cl hclLower]), ← hrev,
    List.reverse_reverse]

/-- Auxiliary: on a sentence built as space-prefixed nonempty
lower-case-alphabetic words, `canonicalizeC` only drops the leading
space: the result is the space-joined word list. -/
theorem canonicalizeC_plain (ts : List (List Char)) (hne : ts ≠ [])
    (h : ∀ t ∈ ts, t ≠ [] ∧ ∀ c ∈ t, isLowerAlpha c = true) :
    canonicalizeC ((ts.map (fun t => ' ' :: t)).flatten) = joinSp ts := by
  obtain ⟨t0, ts', rfl⟩ : ∃ t0 ts', ts = t0 :: ts' := by
    cases ts with
    | nil => exact absurd rfl hne
    | cons a b => exact ⟨a, b, rfl⟩
  have hchar : ∀ c ∈ ((t0 :: ts').map (fun t => ' ' :: t)).flatten,
      c = ' ' ∨ isLowerAlpha c = true := by
    intro c hc
    rcases mem_spaced_flatten hc with h' | ⟨t, ht, hct⟩
    · exact Or.inl h'
    · exact Or.inr ((h t ht).2 c hct)
  have hlow : (((t0 :: ts').map (fun t => ' ' :: t)).flatten).map asciiLower =
      ((t0 :: ts').map (fun t => ' ' :: t)).flatten := by
    refine map_id_of_mem _ asciiLower (fun a ha => ?_)
    rcases hchar a ha with h' | h'
    · rw [h']; decide
    · exact asciiLower_of_lower a h'
  have hbr : ¬ ('[' ∈ ((t0 :: ts').map (fun t => ' ' :: t)).flatten) := by
    intro hmem
    rcases hchar '[' hmem with h' | h'
    · exact absurd h' (by decide)
    · exact absurd h' (by decide)
  have hfil : (((t0 :: ts').map (fun t => ' ' :: t)).flatten).filter
      (fun c => !isPunct c) = ((t0 :: ts').map (fun t => ' ' :: t)).flatten := by
    refine List.filter_eq_self.mpr (fun a ha => ?_)
    rcases hchar a ha with h' | h'
    · rw [h']; decide
    · exact notPunct_of_lower a h'
  have hnsp : ∀ t ∈ t0 :: ts', ∀ c ∈ t, c ≠ ' ' :=
    fun t ht c hc => ne_space_of_lower c ((h t ht).2 c hc)
  have htok : ([] :: (t0 :: ts')).map canonToken = [] :: (t0 :: ts') := by
    rw [List.map_cons, canonToken_nil]
    congr 1
    exact map_id_of_mem _ _ (fun t ht => canonToken_fix t (h t ht).1 (h t ht).2)
  have hlow2 : (' ' :: joinSp (t0 :: ts')).map asciiLower =
      ' ' :: joinSp (t0 :: ts') := by
    refine map_id_of_mem _ _ (fun a ha => ?_)
    rcases List.mem_cons.mp ha with h' | h'
    · rw [h']; decide
    · rcases mem_joinSp h' with h'' | ⟨t, ht, hct⟩
      · rw [h'']; decide
      · exact asciiLower_of_lower a ((h t ht).2 a hct)
  simp only [canonicalizeC]
  rw [hlow, if_neg hbr, hfil, splitSp_spaced_flatten _ hnsp, htok,
    show joinSp ([] :: t0 :: ts') = ' ' :: joinSp (t0 :: ts') from rfl, hlow2,
    mergeSp_lead _ (fun t ht =>
      ⟨(h t ht).1, fun c hc => ne_space_of_lower c ((h t ht).2 c hc)⟩)]
  exact stripPy_lead _ (by simp) h

/-- Auxiliary: the word count of a space-joined list of nonempty
space-free tokens is the number of tokens. -/
theorem wordCount_joinSp (ts : List (List Char)) (hne : ts ≠ [])
    (h : ∀ t ∈ ts, t ≠ [] ∧ ∀ c ∈ t, c ≠ ' ') :
    ((splitSp (joinSp ts)).filter (fun t => !t.isEmpty)).length = ts.length := by
  rw [splitSp_joinSp ts hne (fun t ht => (h t ht).2),
    List.filter_eq_self.mpr ?_]
  intro t ht
  rcases h t ht with ⟨h1, _⟩
  cases t with
  | nil => exact absurd rfl h1
  | cons a b => rfl

/-- Auxiliary: the characters of `String.join` are the concatenated
characters of the joined strings. -/
theorem data_join (l : List String) :
    (String.join l).data = (l.map String.data).flatten := by
  have hgen : ∀ (l : List String) (acc : String),
      (l.foldl (fun r s => r ++ s) acc).data =
        acc.data ++ (l.map String.data).flatten := by
    intro l
    induction l with
    | nil => intro acc; simp
    | cons s rest ih =>
      intro acc
      simp only [List.foldl_cons, List.map_cons, List.flatten_cons]
      rw [ih (acc ++ s), String.data_append, List.append_assoc]
  simpa [String.join] using hgen l ""

/-- C10: `digits_to_words` maps the token "19" to the empty string
(the guard `0 <= integer < 19` excludes 19), maps every token of value
at least 100 to the empty string, produces nonempty words exactly for
the values 0–18 and 20–99, and `canonicalize` therefore deletes such
number tokens from the sentence entirely. -/
theorem C10_digits_to_words :
    digits_to_words "19" = "" ∧
    (∀ s : String, 100 ≤ parseNatL s.data → digits_to_words s = "") ∧
    (∀ s : String, parseNatL s.data ≤ 18 → digits_to_words s ≠ "") ∧
    (∀ s : String, 20 ≤ parseNatL s.data → parseNatL s.data ≤ 99 →
      digits_to_words s ≠ "") ∧
    canonicalize "i am 19" = "i am" ∧
    canonicalize "he has 200 items" = "he has items" := by
  have h18 : ∀ v : ℕ, v < 19 → ((num2words1.lookup v).getD "") ≠ "" := by
    decide
  have h2099 : ∀ v : ℕ, v < 100 → 20 ≤ v →
      (num2words2.getD (v / 10 - 2) "") ++ " " ++
        ((num2words1.lookup (v % 10)).getD "") ≠ "" := by decide
  refine ⟨by decide, ?_, ?_, ?_, by decide, by decide⟩
  · intro s h
    simp only [digits_to_words]
    rw [if_neg (by omega), if_neg (by
      simp only [Bool.and_eq_true, decide_eq_true_eq, not_and]
      omega)]
  · intro s h
    simp only [digits_to_words]
    rw [if_pos (by omega)]
    exact h18 _ (by omega)
  · intro s h1 h2
    simp only [digits_to_words]
    rw [if_neg (by omega), if_pos (by
      simp only [Bool.and_eq_true, decide_eq_true_eq]
      omega)]
    exact h2099 _ (by omega) h1

/-- C10 witness: the characterization applied to the concrete tokens
"200" (deleted) and "5" (kept). -/
theorem C10_witness :
    digits_to_words "200" = "" ∧ digits_to_words "5" ≠ "" :=
  ⟨C10_digits_to_words.2.1 "200" (by decide),
    C10_digits_to_words.2.2.1 "5" (by decide)⟩

/-- C6: counterexample — the code truncates the clipped draw with
`int()` rather than rounding it (2.7 clips to 2.7 and truncates to 2
words, not 3), and canonicalization can expand a digit vocabulary
word, so the returned word count can leave [2, 15]: with vocabulary
["48"] and a draw of 8, the 8 sampled words canonicalize to 16 words. -/
theorem C6_counterexample :
    nWords (27 / 10) = 2 ∧ specNWords (27 / 10) = 3 ∧
    (nWords 8).toNat = (List.replicate 8 0).length ∧
    wordCount (_random_sentence ["48"] (List.replicate 8 0)) = 16 ∧
    ¬ (wordCount (_random_sentence ["48"] (List.replicate 8 0)) ≤ 15) := by
  refine ⟨?_, ?_, ?_, by decide, by decide⟩
  · simp only [nWords, pyTrunc, pyClip]
    norm_num [Int.floor_eq_iff]
  · simp only [specNWords, pyClip]
    norm_num [round_eq, Int.floor_eq_iff]
  · simp only [nWords, pyTrunc, pyClip]
    norm_num [Int.floor_eq_iff]
    decide

/-- Auxiliary: the sampled word count is always between 2 and 15. -/
theorem nWords_bounds (draw : ℚ) : 2 ≤ nWords draw ∧ nWords draw ≤ 15 := by
  unfold nWords pyTrunc pyClip
  by_cases h1 : draw < 2
  · rw [if_pos h1, if_pos (by norm_num)]
    norm_num
  · rw [if_neg h1]
    by_cases h2 : (15 : ℚ) < draw
    · rw [if_pos h2, if_pos (by norm_num)]
      norm_num
    · rw [if_neg h2, if_pos (by push_neg at h1; linarith)]
      push_neg at h1 h2
      constructor
      · exact Int.le_floor.mpr (by exact_mod_cast h1)
      · calc ⌊draw⌋ ≤ ⌊(15 : ℚ)⌋ := Int.floor_le_floor h2
          _ = 15 := by norm_num

/-- C6 (amended): each generated sentence samples
`int(clip(draw, 2, 15))` words — truncation toward zero, not rounding
to nearest — and this count always lies in [2, 15]; the words are
drawn with replacement by index from the vocabulary, space-prefixed,
concatenated and canonicalized; when every vocabulary word is a
nonempty string of lower-case letters (so canonicalization fixes it),
the returned sentence's word count equals the sampled count and hence
lies in [2, 15]. -/
theorem C6_random_sentence (vocab : List String) (draw : ℚ) (idx : List ℕ)
    (hv : ∀ w ∈ vocab, w.data ≠ [] ∧ ∀ c ∈ w.data, isLowerAlpha c = true)
    (hlen : idx.length = (nWords draw).toNat)
    (hrange : ∀ i ∈ idx, i < vocab.length) :
    2 ≤ nWords draw ∧ nWords draw ≤ 15 ∧
    wordCount (_random_sentence vocab idx) = idx.length ∧
    2 ≤ wordCount (_random_sentence vocab idx) ∧
    wordCount (_random_sentence vocab idx) ≤ 15 := by
  obtain ⟨hlo, hhi⟩ := nWords_bounds draw
  have hidxlen : 2 ≤ idx.length ∧ idx.length ≤ 15 := by
    rw [hlen]
    omega
  have hidxne : idx ≠ [] := by
    intro h0
    rw [h0] at hidxlen
    simp at hidxlen
  have htsne : idx.map (fun i => (vocab.getD i "").data) ≠ [] := by
    intro h0
    exact hidxne (List.map_eq_nil_iff.mp h0)
  have htsprop : ∀ t ∈ idx.map (fun i => (vocab.getD i "").data),
      t ≠ [] ∧ ∀ c ∈ t, isLowerAlpha c = true := by
    intro t ht
    rcases List.mem_map.mp ht with ⟨i, hi, rfl⟩
    have hiv : vocab.getD i "" ∈ vocab := by
      rw [List.getD_eq_getElem vocab "" (hrange i hi)]
      exact List.getElem_mem _
    exact hv _ hiv
  have hdata : (String.join (idx.map (fun i => " " ++ vocab.getD i ""))).data =
      ((idx.map (fun i => (vocab.getD i "").data)).map
        (fun t => ' ' :: t)).flatten := by
    rw [data_join, List.map_map, List.map_map]
    congr 1
  have hcanon : _random_sentence vocab idx =
      String.mk (joinSp (idx.map (fun i => (vocab.getD i "").data))) := by
    unfold _random_sentence canonicalize
    rw [hdata, canonicalizeC_plain _ htsne htsprop]
  have hwc : wordCount (_random_sentence vocab idx) = idx.length := by
    rw [hcanon]
    show ((splitSp (joinSp (idx.map (fun i => (vocab.getD i "").data)))).filter
      (fun t => !t.isEmpty)).length = idx.length
    rw [wordCount_joinSp _ htsne (fun t ht =>
      ⟨(htsprop t ht).1,
        fun c hc => ne_space_of_lower c ((htsprop t ht).2 c hc)⟩)]
    rw [List.length_map]
  exact ⟨hlo, hhi, hwc, by rw [hwc]; omega, by rw [hwc]; omega⟩

/-- C6 witness: vocabulary of plain lower-case words, a draw of 3 and
the index sample (0, 1, 0). -/
theorem C6_witness :
    wordCount (_random_sentence ["cat", "dog"] [0, 1, 0]) = 3 ∧
    2 ≤ nWords 3 ∧ nWords 3 ≤ 15 := by
  have h := C6_random_sentence ["cat", "dog"] 3 [0, 1, 0] (by decide)
    (by
      simp only [nWords, pyTrunc, pyClip]
      norm_num [Int.floor_eq_iff]
      decide)
    (by decide)
  exact ⟨h.2.2.1, h.1, h.2.1⟩

end PsychAudio
